import Mathlib

/-!
Verification of the 1D viscous Burgers time stepper described by the
repository's specification, as used by the driver loop in
`lecture-1-intro-dl-diff/Burgers_1D.ipynb`.

The notebook's stepper calls `diffuse.explicit` and `advect.semi_lagrangian`
from the third-party phiflow library; those two routines are therefore
modelled here from the specification's own description (explicit Euler step
of the periodic central-difference heat operator, followed by
semi-Lagrangian advection with periodic linear interpolation).  The grid
constants, the initial condition and the driver loop are translated from
the notebook source.  Everything is developed over an arbitrary linear
ordered field with a floor function, so the same definitions evaluate
exactly over `ℚ` and instantiate over `ℝ` for the π-dependent facts.
-/

set_option linter.unusedSectionVars false

namespace BurgersSpec

variable {α : Type} [LinearOrderedField α] [FloorRing α]

/-- Grid spacing `h = (b - a) / N` of a periodic grid with `N` cells on
the interval `[a, b]`. -/
def gridSpacing (a b : α) (N : ℕ) : α := (b - a) / N

/-- Modelled from the spec: `diffuse.explicit` (phiflow, not in this
repository).  One explicit Euler step of the heat operator with periodic
indices: `v1[i] = field[i] + nu*dt/h^2 * (field[i+1] - 2*field[i] +
field[i-1])`, indices taken modulo `N`. -/
def diffuseExplicit (a b nu dt : α) (field : List α) : List α :=
  (List.range field.length).map (fun i =>
    field.getD i 0 + nu * dt / (gridSpacing a b field.length) ^ 2 *
      (field.getD ((i + 1) % field.length) 0 - 2 * field.getD i 0 +
        field.getD ((i + field.length - 1) % field.length) 0))

/-- Modelled from the spec: wrapping of a departure point into the periodic
domain `[a, b)`. -/
def wrapPoint (a b x : α) : α := a + (b - a) * Int.fract ((x - a) / (b - a))

/-- Modelled from the spec: linear interpolation of the samples `v` on the
periodic grid over `[a, b]` at the point `x`: the point is wrapped into the
domain, and the value is interpolated linearly between the two nearest grid
samples, with periodic wraparound at the domain boundary. -/
def interpPeriodic (a b : α) (v : List α) (x : α) : α :=
  let N := v.length
  let h := gridSpacing a b N
  let u := (wrapPoint a b x - a) / h
  let j := (Int.floor u).toNat
  (1 - Int.fract u) * v.getD (j % N) 0 + Int.fract u * v.getD ((j + 1) % N) 0

/-- Modelled from the spec: `advect.semi_lagrangian` (phiflow, not in this
repository) with the field advected by itself.  For each grid index `i`
the departure location `x_i - v[i]*dt` is traced backward and `v` is
interpolated there with periodic linear interpolation. -/
def advectSemiLagrangian (a b dt : α) (v : List α) : List α :=
  (List.range v.length).map (fun (i : ℕ) =>
    interpPeriodic a b v (a + (i : α) * gridSpacing a b v.length - v.getD i 0 * dt))

/-- One time step of the Burgers stepper: explicit diffusion followed by
semi-Lagrangian advection, as performed by the body of the notebook's
driver loop. -/
def stepPure (a b nu dt : α) (field : List α) : List α :=
  advectSemiLagrangian a b dt (diffuseExplicit a b nu dt field)

/-- Error taxonomy of the stepper, from the specification. -/
inductive StepError where
  | shapeMismatch
  | invalidParameter
deriving DecidableEq

/-- Modelled from the spec: the checked `step` operation.  A field whose
length differs from `N` signals a shape-mismatch configuration error;
`nu < 0` or `dt <= 0` signals an invalid-parameter error; otherwise the
new field is returned normally. -/
def step (N : ℕ) (a b nu dt : α) (field : List α) : Except StepError (List α) :=
  if field.length ≠ N then Except.error StepError.shapeMismatch
  else if nu < 0 ∨ dt ≤ 0 then Except.error StepError.invalidParameter
  else Except.ok (stepPure a b nu dt field)

/-- The notebook's driver loop: starting from the list `[init]`, each
iteration appends the stepped last element (the trace after `k` iterations
has length `k + 1`, so its last element sits at index `k`).
`velocities a b nu dt init k` is the trace after `k` iterations. -/
def velocities (a b nu dt : α) (init : List α) : ℕ → List (List α)
  | 0 => [init]
  | k + 1 =>
      velocities a b nu dt init k ++
        [stepPure a b nu dt ((velocities a b nu dt init k).getD k [])]

/-- Cyclic rotation of a field by `r` grid points. -/
def rotateField (r : ℕ) (v : List α) : List α :=
  (List.range v.length).map (fun i => v.getD ((i + r) % v.length) 0)

/-- Canonical grid index determined by an integer: its residue modulo `N`. -/
def idxOf (N : ℕ) (z : ℤ) : ℕ := (z % (N : ℤ)).toNat

theorem length_diffuseExplicit (a b nu dt : α) (field : List α) :
    (diffuseExplicit a b nu dt field).length = field.length := by
  simp [diffuseExplicit]

theorem length_advectSemiLagrangian (a b dt : α) (v : List α) :
    (advectSemiLagrangian a b dt v).length = v.length := by
  simp [advectSemiLagrangian]

theorem length_stepPure (a b nu dt : α) (field : List α) :
    (stepPure a b nu dt field).length = field.length := by
  simp [stepPure, length_advectSemiLagrangian, length_diffuseExplicit]

theorem length_rotateField (r : ℕ) (v : List α) :
    (rotateField r v).length = v.length := by
  simp [rotateField]

theorem getD_map_range (f : ℕ → α) (n i : ℕ) (hi : i < n) :
    ((List.range n).map f).getD i 0 = f i := by
  rw [List.getD_eq_getElem ((List.range n).map f) 0 (by simpa using hi)]
  simp

theorem idxOf_lt (N : ℕ) (z : ℤ) (hN : 0 < N) : idxOf N z < N := by
  have hN0 : (0:ℤ) < (N:ℤ) := by exact_mod_cast hN
  have h1 := Int.emod_nonneg z (ne_of_gt hN0)
  have h2 := Int.emod_lt_of_pos z hN0
  unfold idxOf
  omega

theorem natCast_idxOf (N : ℕ) (z : ℤ) (hN : 0 < N) :
    ((idxOf N z : ℕ) : ℤ) = z % (N : ℤ) := by
  unfold idxOf
  exact Int.toNat_of_nonneg (Int.emod_nonneg z (by exact_mod_cast hN.ne'))

theorem idxOf_add_natCast (N : ℕ) (z : ℤ) (r : ℕ) (hN : 0 < N) :
    idxOf N (z + (r : ℤ)) = (idxOf N z + r) % N := by
  have h : ((idxOf N (z + (r : ℤ)) : ℕ) : ℤ) = (((idxOf N z + r) % N : ℕ) : ℤ) := by
    rw [natCast_idxOf N _ hN, Int.natCast_mod]
    push_cast
    rw [natCast_idxOf N z hN, Int.emod_add_emod]
  exact_mod_cast h

theorem idxOf_add_mul_natCast (N : ℕ) (z k : ℤ) :
    idxOf N (z + k * (N : ℤ)) = idxOf N z := by
  unfold idxOf
  rw [Int.add_mul_emod_self]

/-- The periodic interpolation, expressed through the unwrapped normalized
coordinate `s = (x - a) * N / (b - a)`: the interpolation weight is the
fractional part of `s` and the two sample indices are the residues of
`⌊s⌋` and `⌊s⌋ + 1` modulo `N`. -/
theorem interpPeriodic_char (a b : α) (v : List α) (x : α)
    (hN : 0 < v.length) (hab : a < b) :
    interpPeriodic a b v x =
      (1 - Int.fract ((x - a) * v.length / (b - a))) *
          v.getD (idxOf v.length ⌊(x - a) * (v.length : α) / (b - a)⌋) 0 +
        Int.fract ((x - a) * v.length / (b - a)) *
          v.getD (idxOf v.length (⌊(x - a) * (v.length : α) / (b - a)⌋ + 1)) 0 := by
  set N := v.length with hNdef
  set s : α := (x - a) * N / (b - a) with hs
  set q : ℤ := ⌊s / (N : α)⌋ with hq
  have hba : (0:α) < b - a := sub_pos.mpr hab
  have hba0 : (b : α) - a ≠ 0 := ne_of_gt hba
  have hNα : (0:α) < (N:α) := by exact_mod_cast hN
  have hNα0 : (N:α) ≠ 0 := ne_of_gt hNα
  have hdiv : (x - a) / (b - a) = s / N := by
    rw [hs]; field_simp; ring
  have hfr : Int.fract ((x - a) / (b - a)) = s / (N : α) - (q : α) := by
    rw [hdiv, ← Int.self_sub_floor, hq]
  have hu : (wrapPoint a b x - a) / gridSpacing a b N = s - ((N * q : ℤ) : α) := by
    unfold wrapPoint gridSpacing
    rw [hfr]
    push_cast
    field_simp
    ring
  have hq1 : (q : α) ≤ s / N := Int.floor_le _
  have hq2 : s / (N : α) < q + 1 := Int.lt_floor_add_one _
  have hu0 : (0:α) ≤ s - ((N * q : ℤ) : α) := by
    rw [le_div_iff hNα] at hq1
    push_cast
    nlinarith
  have huN : s - ((N * q : ℤ) : α) < (N : α) := by
    rw [div_lt_iff hNα] at hq2
    push_cast
    nlinarith
  have hfl : ⌊s - ((N * q : ℤ) : α)⌋ = ⌊s⌋ - N * q := Int.floor_sub_int s (N * q)
  have hm0 : 0 ≤ ⌊s⌋ - N * q := by
    rw [← hfl]
    exact Int.floor_nonneg.mpr hu0
  have hmN : ⌊s⌋ - N * q < (N : ℤ) := by
    rw [← hfl]
    exact Int.floor_lt.mpr (by exact_mod_cast huN)
  have hidx1 : (⌊s - ((N * q : ℤ) : α)⌋.toNat % N) = idxOf N ⌊s⌋ := by
    rw [hfl]
    have h1 : (⌊s⌋ - N * q).toNat < N := by omega
    rw [Nat.mod_eq_of_lt h1]
    unfold idxOf
    have h2 : ⌊s⌋ % (N : ℤ) = ⌊s⌋ - N * q := by
      have h3 : ⌊s⌋ = (⌊s⌋ - N * q) + N * q := by ring
      conv_lhs => rw [h3]
      rw [Int.add_mul_emod_self_left]
      exact Int.emod_eq_of_lt hm0 hmN
    rw [h2]
  have hidx2 : ((⌊s - ((N * q : ℤ) : α)⌋.toNat + 1) % N) = idxOf N (⌊s⌋ + 1) := by
    rw [hfl]
    unfold idxOf
    have h2 : (⌊s⌋ + 1) % (N : ℤ) = (((⌊s⌋ - N * q).toNat + 1 : ℕ) : ℤ) % (N : ℤ) := by
      have h3 : (((⌊s⌋ - N * q).toNat + 1 : ℕ) : ℤ) = ⌊s⌋ + 1 - N * q := by omega
      rw [h3]
      have h4 : ⌊s⌋ + 1 = (⌊s⌋ + 1 - N * q) + N * q := by ring
      conv_lhs => rw [h4]
      rw [Int.add_mul_emod_self_left]
    rw [h2, ← Int.natCast_mod, Int.toNat_natCast]
  have hfrac : Int.fract (s - ((N * q : ℤ) : α)) = Int.fract s := Int.fract_sub_int s (N * q)
  show (1 - Int.fract ((wrapPoint a b x - a) / gridSpacing a b N)) *
      v.getD (⌊(wrapPoint a b x - a) / gridSpacing a b N⌋.toNat % N) 0 +
    Int.fract ((wrapPoint a b x - a) / gridSpacing a b N) *
      v.getD ((⌊(wrapPoint a b x - a) / gridSpacing a b N⌋.toNat + 1) % N) 0 =
    (1 - Int.fract s) * v.getD (idxOf N ⌊s⌋) 0 +
      Int.fract s * v.getD (idxOf N (⌊s⌋ + 1)) 0
  rw [hu, hidx1, hidx2, hfrac]

/-- CLAIM C1.  For every input field of length `N` and parameters `dt`,
`nu`, the diffusion sub-step produces `v1` with
`v1[i] = field[i] + nu*dt/h^2 * (field[(i+1) % N] - 2*field[i] +
field[(i-1) % N])` at every grid index `i`, where `h = (b-a)/N` and the
left neighbour `(i-1) % N` is realized as `(i + N - 1) % N`. -/
theorem diffuseExplicit_formula (a b nu dt : α) (field : List α) (N i : ℕ)
    (hN : field.length = N) (hi : i < N) :
    (diffuseExplicit a b nu dt field).getD i 0 =
      field.getD i 0 + nu * dt / (gridSpacing a b N) ^ 2 *
        (field.getD ((i + 1) % N) 0 - 2 * field.getD i 0 +
          field.getD ((i + N - 1) % N) 0) := by
  subst hN
  rw [diffuseExplicit, getD_map_range _ _ _ hi]

theorem diffuseExplicit_formula_witness :
    ([1, 2, 4] : List ℚ).length = 3 ∧ 0 < 3 ∧
      ((diffuseExplicit 0 3 1 1 ([1, 2, 4] : List ℚ)).getD 0 0 =
        ([1, 2, 4] : List ℚ).getD 0 0 + 1 * 1 / (gridSpacing 0 3 3) ^ 2 *
          (([1, 2, 4] : List ℚ).getD (1 % 3) 0 - 2 * ([1, 2, 4] : List ℚ).getD 0 0 +
            ([1, 2, 4] : List ℚ).getD ((0 + 3 - 1) % 3) 0)) :=
  ⟨rfl, by decide, diffuseExplicit_formula 0 3 1 1 [1, 2, 4] 3 0 rfl (by decide)⟩

/-- CLAIM C2.  For every intermediate field `v1`, the advection sub-step
produces `v2` where `v2[i]` is the periodic linear interpolation of `v1`
at the departure location `x_i - v1[i]*dt` (the interpolation wraps the
departure point into the periodic domain `[a, b]` and interpolates
linearly between the two nearest grid samples with periodic wraparound,
as `interpPeriodic` does). -/
theorem advectSemiLagrangian_formula (a b dt : α) (v : List α) (i : ℕ)
    (hi : i < v.length) :
    (advectSemiLagrangian a b dt v).getD i 0 =
      interpPeriodic a b v (a + (i : α) * gridSpacing a b v.length - v.getD i 0 * dt) := by
  rw [advectSemiLagrangian, getD_map_range _ _ _ hi]

theorem advectSemiLagrangian_formula_witness :
    0 < ([1, 2] : List ℚ).length ∧
      (advectSemiLagrangian 0 2 1 ([1, 2] : List ℚ)).getD 0 0 =
        interpPeriodic 0 2 ([1, 2] : List ℚ)
          (0 + (0 : ℚ) * gridSpacing 0 2 ([1, 2] : List ℚ).length -
            ([1, 2] : List ℚ).getD 0 0 * 1) :=
  ⟨by decide, advectSemiLagrangian_formula 0 2 1 [1, 2] 0 (by decide)⟩

/-- CLAIM C8.  A departure point equal to the last grid coordinate plus
half a grid spacing is interpolated with the last grid point (index
`N - 1`) as its left neighbour and the first grid point (index `0`) as
its right neighbour, each with weight `1/2`; all accesses stay in
bounds and the interpolation is an ordinary total computation. -/
theorem interpPeriodic_boundary (a b : α) (v : List α)
    (hN : 0 < v.length) (hab : a < b) :
    interpPeriodic a b v
        (a + ((v.length - 1 : ℕ) : α) * gridSpacing a b v.length +
          gridSpacing a b v.length / 2) =
      (1 - 1 / 2) * v.getD (v.length - 1) 0 + 1 / 2 * v.getD 0 0 := by
  set N := v.length with hNdef
  rw [interpPeriodic_char a b v _ hN hab]
  have hba0 : (b : α) - a ≠ 0 := ne_of_gt (sub_pos.mpr hab)
  have hNα : (0:α) < (N:α) := by exact_mod_cast hN
  have h1N : (1:ℕ) ≤ N := hN
  have hs : (a + ((N - 1 : ℕ) : α) * gridSpacing a b N + gridSpacing a b N / 2 - a) *
      (N : α) / (b - a) = (N : α) - 1/2 := by
    unfold gridSpacing
    push_cast [Nat.cast_sub h1N]
    field_simp
    ring
  rw [hs]
  have hfloor : ⌊(N : α) - 1/2⌋ = (N : ℤ) - 1 := by
    rw [Int.floor_eq_iff]
    constructor
    · push_cast; linarith
    · push_cast; linarith
  have hfract : Int.fract ((N : α) - 1/2) = 1/2 := by
    rw [← Int.self_sub_floor, hfloor]
    push_cast
    ring
  rw [hfloor, hfract]
  have hidx1 : idxOf N ((N:ℤ) - 1) = N - 1 := by
    unfold idxOf
    rw [Int.emod_eq_of_lt (by omega) (by omega)]
    omega
  have hidx2 : idxOf N ((N:ℤ) - 1 + 1) = 0 := by
    unfold idxOf
    have h : (N:ℤ) - 1 + 1 = (N:ℤ) := by ring
    rw [h, Int.emod_self]
    rfl
  rw [hidx1, hidx2]

theorem interpPeriodic_boundary_witness :
    0 < ([5, 7] : List ℚ).length ∧ (0:ℚ) < 2 ∧
      interpPeriodic 0 2 ([5, 7] : List ℚ)
          (0 + ((([5, 7] : List ℚ).length - 1 : ℕ) : ℚ) *
              gridSpacing 0 2 ([5, 7] : List ℚ).length +
            gridSpacing 0 2 ([5, 7] : List ℚ).length / 2) =
        (1 - 1 / 2) * ([5, 7] : List ℚ).getD (([5, 7] : List ℚ).length - 1) 0 +
          1 / 2 * ([5, 7] : List ℚ).getD 0 0 :=
  ⟨by decide, by norm_num, interpPeriodic_boundary 0 2 [5, 7] (by decide) (by norm_num)⟩

/-- CLAIM C3.  `step` signals an error exactly when the input field length
differs from `N` (shape mismatch) or when `nu < 0` or `dt ≤ 0` (invalid
parameter); for all other inputs it returns the new field normally.  The
error is a value returned synchronously to the caller. -/
theorem step_error_characterization (N : ℕ) (a b nu dt : α) (field : List α) :
    ((∃ e, step N a b nu dt field = Except.error e) ↔
        (field.length ≠ N ∨ nu < 0 ∨ dt ≤ 0)) ∧
      (field.length ≠ N →
        step N a b nu dt field = Except.error StepError.shapeMismatch) ∧
      (field.length = N → (nu < 0 ∨ dt ≤ 0) →
        step N a b nu dt field = Except.error StepError.invalidParameter) ∧
      (field.length = N → 0 ≤ nu → 0 < dt →
        step N a b nu dt field = Except.ok (stepPure a b nu dt field)) := by
  unfold step
  split_ifs with h1 h2
  · exact ⟨⟨fun _ => Or.inl h1, fun _ => ⟨StepError.shapeMismatch, rfl⟩⟩,
      fun _ => rfl, fun hlen _ => absurd hlen h1, fun hlen _ _ => absurd hlen h1⟩
  · push_neg at h1
    refine ⟨⟨fun _ => Or.inr h2, fun _ => ⟨StepError.invalidParameter, rfl⟩⟩,
      fun hne => absurd h1 hne, fun _ _ => rfl, fun _ hnu hdt => ?_⟩
    rcases h2 with h | h
    · exact absurd h (not_lt.mpr hnu)
    · exact absurd h (not_le.mpr hdt)
  · push_neg at h1 h2
    refine ⟨⟨fun he => ?_, fun hcon => ?_⟩, fun hne => absurd h1 hne,
      fun _ hor => ?_, fun _ _ _ => rfl⟩
    · obtain ⟨e, he⟩ := he
      exact he.elim
    · rcases hcon with h | h | h
      · exact absurd h1 h
      · exact absurd h (not_lt.mpr h2.1)
      · exact absurd h (not_le.mpr h2.2)
    · rcases hor with h | h
      · exact absurd h (not_lt.mpr h2.1)
      · exact absurd h (not_le.mpr h2.2)

theorem step_error_characterization_witness :
    step 2 (0:ℚ) 1 0 1 [1, 2] = Except.ok (stepPure (0:ℚ) 1 0 1 [1, 2]) :=
  (step_error_characterization 2 (0:ℚ) 1 0 1 [1, 2]).2.2.2 rfl le_rfl one_pos

theorem list_sum_map_range (f : ℕ → α) (n : ℕ) :
    ((List.range n).map f).sum = ∑ i ∈ Finset.range n, f i := by
  induction n with
  | zero => simp
  | succ k ih =>
      rw [List.range_succ, List.map_append, List.sum_append,
        Finset.sum_range_succ, ih]
      simp

theorem list_sum_eq_sum_getD (v : List α) :
    v.sum = ∑ i ∈ Finset.range v.length, v.getD i 0 := by
  induction v with
  | nil => simp
  | cons a l ih =>
      rw [List.sum_cons, List.length_cons, Finset.sum_range_succ']
      simp only [List.getD_cons_succ, List.getD_cons_zero]
      rw [← ih]
      ring

theorem sum_range_mod_shift (f : ℕ → α) (N k : ℕ) (hN : 0 < N) :
    ∑ i ∈ Finset.range N, f ((i + k) % N) = ∑ i ∈ Finset.range N, f i := by
  haveI : NeZero N := ⟨hN.ne'⟩
  rw [Finset.sum_range, Finset.sum_range]
  set c : Fin N := ⟨k % N, Nat.mod_lt k hN⟩ with hc
  have h : ∀ i : Fin N, f ((i.val + k) % N) = f ((Equiv.addRight c i).val) := by
    intro i
    congr 1
    show (i.val + k) % N = (i + c).val
    rw [Fin.val_add]
    exact (Nat.add_mod_mod i.val k N).symm
  calc ∑ i : Fin N, f ((i.val + k) % N)
      = ∑ i : Fin N, f ((Equiv.addRight c i).val) :=
        Finset.sum_congr rfl (fun i _ => h i)
    _ = ∑ i : Fin N, f i.val := Equiv.sum_comp (Equiv.addRight c) (fun i => f i.val)

/-- CLAIM C7.  The diffusion sub-step conserves the grid sum exactly: the
sum of the intermediate field `v1` equals the sum of the input field, for
every field and every `dt`, `nu` (discrete conservation of the periodic
central-difference Laplacian in exact arithmetic). -/
theorem diffuseExplicit_sum (a b nu dt : α) (field : List α) :
    (diffuseExplicit a b nu dt field).sum = field.sum := by
  rcases Nat.eq_zero_or_pos field.length with h0 | h0
  · rw [List.length_eq_zero] at h0
    subst h0
    rfl
  rw [diffuseExplicit, list_sum_map_range, list_sum_eq_sum_getD]
  rw [Finset.sum_add_distrib, ← Finset.mul_sum]
  have h1 : ∑ i ∈ Finset.range field.length,
      (field.getD ((i + 1) % field.length) 0 - 2 * field.getD i 0 +
        field.getD ((i + field.length - 1) % field.length) 0) = 0 := by
    rw [Finset.sum_add_distrib, Finset.sum_sub_distrib, ← Finset.mul_sum]
    have e1 : ∑ i ∈ Finset.range field.length, field.getD ((i + 1) % field.length) 0 =
        ∑ i ∈ Finset.range field.length, field.getD i 0 :=
      sum_range_mod_shift (fun j => field.getD j 0) field.length 1 h0
    have hsub : ∀ i : ℕ, i + field.length - 1 = i + (field.length - 1) := by
      intro i; omega
    have e2 : ∑ i ∈ Finset.range field.length,
        field.getD ((i + field.length - 1) % field.length) 0 =
        ∑ i ∈ Finset.range field.length, field.getD i 0 := by
      simp only [hsub]
      exact sum_range_mod_shift (fun j => field.getD j 0) field.length (field.length - 1) h0
    rw [e1, e2]
    ring
  rw [h1, mul_zero, add_zero]

theorem velocities_length (a b nu dt : α) (init : List α) (k : ℕ) :
    (velocities a b nu dt init k).length = k + 1 := by
  induction k with
  | zero => rfl
  | succ n ih => simp [velocities, ih]

theorem velocities_getD_of_le (a b nu dt : α) (init : List α) (k m j : ℕ)
    (hk : k ≤ m) (hj : j ≤ k) :
    (velocities a b nu dt init m).getD j [] =
      (velocities a b nu dt init k).getD j [] := by
  induction m with
  | zero =>
      have : k = 0 := Nat.le_zero.mp hk
      subst this
      rfl
  | succ n ih =>
      rcases Nat.eq_or_lt_of_le hk with he | hlt
      · subst he
        rfl
      · have hk' : k ≤ n := by omega
        rw [velocities]
        rw [List.getD_append _ _ _ _ (by rw [velocities_length]; omega)]
        exact ih hk'

theorem velocities_getD_zero (a b nu dt : α) (init : List α) (m : ℕ) :
    (velocities a b nu dt init m).getD 0 [] = init := by
  rw [velocities_getD_of_le a b nu dt init 0 m 0 (Nat.zero_le m) le_rfl]
  rfl

theorem velocities_getD_succ (a b nu dt : α) (init : List α) (m k : ℕ)
    (hk : k < m) :
    (velocities a b nu dt init m).getD (k + 1) [] =
      stepPure a b nu dt ((velocities a b nu dt init m).getD k []) := by
  rw [velocities_getD_of_le a b nu dt init (k + 1) m (k + 1) hk le_rfl]
  rw [velocities_getD_of_le a b nu dt init k m k (le_of_lt hk) le_rfl]
  rw [velocities]
  rw [List.getD_append_right _ _ _ _ (by rw [velocities_length])]
  rw [velocities_length]
  simp

theorem velocities_all_length (a b nu dt : α) (init : List α) (N : ℕ)
    (hinit : init.length = N) (k : ℕ) :
    ∀ g ∈ velocities a b nu dt init k, g.length = N := by
  induction k with
  | zero =>
      intro g hg
      rw [velocities, List.mem_singleton] at hg
      subst hg
      exact hinit
  | succ n ih =>
      intro g hg
      rw [velocities] at hg
      rcases List.mem_append.mp hg with h | h
      · exact ih g h
      · rw [List.mem_singleton] at h
        subst h
        rw [length_stepPure]
        apply ih
        have hlen : n < (velocities a b nu dt init n).length := by
          rw [velocities_length]; omega
        rw [List.getD_eq_getElem _ _ hlen]
        exact List.getElem_mem hlen

/-- CLAIM C4.  If the input field has length `N` (and the stability bound
`nu*dt/h^2 ≤ 1/2` holds, as the claim hypothesizes), the field returned by
the stepper has length exactly `N`, and every field in the trace produced
by driving the stepper from it keeps length `N`.  (In this exact-arithmetic
model every value is a finite element of the field `α` by construction.) -/
theorem stepPure_length_invariant (a b nu dt : α) (field : List α) (N : ℕ)
    (hf : field.length = N)
    (hstab : nu * dt / (gridSpacing a b N) ^ 2 ≤ 1 / 2) :
    (stepPure a b nu dt field).length = N ∧
      ∀ steps : ℕ, ∀ g ∈ velocities a b nu dt field steps, g.length = N :=
  ⟨by rw [length_stepPure]; exact hf,
    fun steps => velocities_all_length a b nu dt field N hf steps⟩

theorem stepPure_length_invariant_witness :
    ([1, 2] : List ℚ).length = 2 ∧
      (0:ℚ) * 1 / (gridSpacing (0:ℚ) 1 2) ^ 2 ≤ 1 / 2 ∧
      (stepPure (0:ℚ) 1 0 1 [1, 2]).length = 2 :=
  ⟨rfl, by norm_num [gridSpacing],
    (stepPure_length_invariant (0:ℚ) 1 0 1 [1, 2] 2 rfl (by norm_num [gridSpacing])).1⟩

theorem list_eq_of_getD (l1 l2 : List α) (hlen : l1.length = l2.length)
    (h : ∀ i, i < l1.length → l1.getD i 0 = l2.getD i 0) : l1 = l2 := by
  apply List.ext_getElem hlen
  intro i h1 h2
  have hh := h i h1
  rwa [List.getD_eq_getElem _ _ h1, List.getD_eq_getElem _ _ h2] at hh

theorem rotateField_getD (r : ℕ) (v : List α) (i : ℕ) (hi : i < v.length) :
    (rotateField r v).getD i 0 = v.getD ((i + r) % v.length) 0 := by
  rw [rotateField, getD_map_range _ _ _ hi]

theorem diffuseExplicit_rotate (a b nu dt : α) (v : List α) (r : ℕ) :
    diffuseExplicit a b nu dt (rotateField r v) =
      rotateField r (diffuseExplicit a b nu dt v) := by
  apply list_eq_of_getD
  · rw [length_diffuseExplicit, length_rotateField, length_rotateField,
      length_diffuseExplicit]
  intro i hi
  rw [length_diffuseExplicit, length_rotateField] at hi
  have hN : 0 < v.length := by omega
  have hir : (i + r) % v.length < v.length := Nat.mod_lt _ hN
  have h1 : (i + 1) % v.length < v.length := Nat.mod_lt _ hN
  have h2 : (i + v.length - 1) % v.length < v.length := Nat.mod_lt _ hN
  rw [diffuseExplicit_formula a b nu dt (rotateField r v) v.length i
    (length_rotateField r v) hi]
  rw [rotateField_getD r v i hi, rotateField_getD r v _ h1, rotateField_getD r v _ h2]
  rw [rotateField_getD r (diffuseExplicit a b nu dt v) i
    (by rw [length_diffuseExplicit]; exact hi), length_diffuseExplicit]
  rw [diffuseExplicit_formula a b nu dt v v.length ((i + r) % v.length) rfl hir]
  have eA : ((i + 1) % v.length + r) % v.length =
      ((i + r) % v.length + 1) % v.length := by
    rw [Nat.mod_add_mod, Nat.mod_add_mod]
    congr 1
    omega
  have eB : ((i + v.length - 1) % v.length + r) % v.length =
      ((i + r) % v.length + v.length - 1) % v.length := by
    have hx : (i + r) % v.length + v.length - 1 =
        (i + r) % v.length + (v.length - 1) := by omega
    have hy : i + v.length - 1 = i + (v.length - 1) := by omega
    rw [hx, hy, Nat.mod_add_mod, Nat.mod_add_mod]
    congr 1
    omega
  rw [eA, eB]

theorem interpPeriodic_rotate (a b : α) (v : List α) (r : ℕ) (x : α)
    (hN : 0 < v.length) (hab : a < b) :
    interpPeriodic a b (rotateField r v) x =
      interpPeriodic a b v (x + (r : α) * gridSpacing a b v.length) := by
  have hba0 : (b : α) - a ≠ 0 := ne_of_gt (sub_pos.mpr hab)
  have hNα : (0:α) < (v.length : α) := by exact_mod_cast hN
  rw [interpPeriodic_char a b (rotateField r v) x
    (by rw [length_rotateField]; exact hN) hab]
  simp only [length_rotateField]
  rw [interpPeriodic_char a b v _ hN hab]
  have hs : (x + (r : α) * gridSpacing a b v.length - a) * (v.length : α) / (b - a) =
      (x - a) * (v.length : α) / (b - a) + (r : α) := by
    unfold gridSpacing
    field_simp
    ring
  rw [hs]
  set s : α := (x - a) * (v.length : α) / (b - a) with hsdef
  rw [Int.floor_add_nat s r, Int.fract_add_nat s r]
  rw [rotateField_getD r v _ (idxOf_lt v.length ⌊s⌋ hN),
    rotateField_getD r v _ (idxOf_lt v.length (⌊s⌋ + 1) hN)]
  rw [← idxOf_add_natCast v.length ⌊s⌋ r hN, ← idxOf_add_natCast v.length (⌊s⌋ + 1) r hN]
  have e2 : ⌊s⌋ + 1 + (r : ℤ) = ⌊s⌋ + (r : ℤ) + 1 := by ring
  rw [e2]

theorem interpPeriodic_add_nat_mul (a b : α) (v : List α) (x : α) (k : ℕ)
    (hN : 0 < v.length) (hab : a < b) :
    interpPeriodic a b v (x + (k : α) * (b - a)) = interpPeriodic a b v x := by
  have hba0 : (b : α) - a ≠ 0 := ne_of_gt (sub_pos.mpr hab)
  have hNα : (0:α) < (v.length : α) := by exact_mod_cast hN
  rw [interpPeriodic_char a b v _ hN hab, interpPeriodic_char a b v x hN hab]
  have hs : (x + (k : α) * (b - a) - a) * (v.length : α) / (b - a) =
      (x - a) * (v.length : α) / (b - a) + ((k * v.length : ℤ) : α) := by
    push_cast
    field_simp
    ring
  rw [hs]
  set s : α := (x - a) * (v.length : α) / (b - a) with hsdef
  rw [Int.floor_add_int s (k * v.length), Int.fract_add_int s (k * v.length)]
  have e1 : ⌊s⌋ + (k : ℤ) * (v.length : ℤ) = ⌊s⌋ + (k : ℤ) * ((v.length : ℕ) : ℤ) := by
    norm_num
  rw [idxOf_add_mul_natCast v.length ⌊s⌋ (k : ℤ)]
  have e2 : ⌊s⌋ + (k : ℤ) * (v.length : ℤ) + 1 = ⌊s⌋ + 1 + (k : ℤ) * (v.length : ℤ) := by
    ring
  rw [e2, idxOf_add_mul_natCast v.length (⌊s⌋ + 1) (k : ℤ)]

theorem advectSemiLagrangian_rotate (a b dt : α) (v : List α) (r : ℕ)
    (hab : a < b) :
    advectSemiLagrangian a b dt (rotateField r v) =
      rotateField r (advectSemiLagrangian a b dt v) := by
  rcases Nat.eq_zero_or_pos v.length with h0 | h0
  · rw [List.length_eq_zero] at h0
    subst h0
    rfl
  apply list_eq_of_getD
  · rw [length_advectSemiLagrangian, length_rotateField, length_rotateField,
      length_advectSemiLagrangian]
  intro i hi
  rw [length_advectSemiLagrangian, length_rotateField] at hi
  have hir : (i + r) % v.length < v.length := Nat.mod_lt _ h0
  rw [advectSemiLagrangian_formula a b dt (rotateField r v) i
    (by rw [length_rotateField]; exact hi)]
  simp only [length_rotateField]
  rw [rotateField_getD r v i hi]
  rw [interpPeriodic_rotate a b v r _ h0 hab]
  rw [rotateField_getD r (advectSemiLagrangian a b dt v) i
    (by rw [length_advectSemiLagrangian]; exact hi), length_advectSemiLagrangian]
  rw [advectSemiLagrangian_formula a b dt v ((i + r) % v.length) hir]
  have hK := Nat.div_add_mod (i + r) v.length
  have hKα : ((i : α) + (r : α)) =
      (v.length : α) * (((i + r) / v.length : ℕ) : α) + (((i + r) % v.length : ℕ) : α) := by
    exact_mod_cast congrArg (fun n : ℕ => (n : α)) hK.symm
  have hNα : (0:α) < (v.length : α) := by exact_mod_cast h0
  have hh : (v.length : α) * gridSpacing a b v.length = b - a := by
    unfold gridSpacing
    field_simp
  have harg : a + (i : α) * gridSpacing a b v.length -
      v.getD ((i + r) % v.length) 0 * dt + (r : α) * gridSpacing a b v.length =
      a + (((i + r) % v.length : ℕ) : α) * gridSpacing a b v.length -
        v.getD ((i + r) % v.length) 0 * dt +
        (((i + r) / v.length : ℕ) : α) * (b - a) := by
    rw [← hh]
    linear_combination gridSpacing a b v.length * hKα
  rw [harg]
  rw [interpPeriodic_add_nat_mul a b v _ ((i + r) / v.length) h0 hab]

/-- CLAIM C6.  The stepper is shift-equivariant on the ring: applying the
step to a cyclically rotated field gives the rotation of the stepped
field, for every field, every rotation offset, and all `dt`, `nu`. -/
theorem stepPure_rotate_equivariant (a b nu dt : α) (v : List α) (r : ℕ)
    (hab : a < b) :
    stepPure a b nu dt (rotateField r v) = rotateField r (stepPure a b nu dt v) := by
  unfold stepPure
  rw [diffuseExplicit_rotate]
  have hlen : (diffuseExplicit a b nu dt v).length = v.length :=
    length_diffuseExplicit a b nu dt v
  exact advectSemiLagrangian_rotate a b dt (diffuseExplicit a b nu dt v) r hab

theorem stepPure_rotate_equivariant_witness :
    (0:ℚ) < 1 ∧
      stepPure (0:ℚ) 1 1 1 (rotateField 1 [1, 2]) =
        rotateField 1 (stepPure (0:ℚ) 1 1 1 [1, 2]) :=
  ⟨by norm_num, stepPure_rotate_equivariant (0:ℚ) 1 1 1 [1, 2] 1 (by norm_num)⟩

end BurgersSpec

namespace Burgers1D

/-- Notebook constant: `N = 128` discretization cells. -/
def N : ℕ := 128

/-- Notebook constant: `STEPS = 32` time steps. -/
def STEPS : ℕ := 32

/-- Notebook constant: `DT = 1./STEPS`. -/
noncomputable def DT : ℝ := 1 / (STEPS : ℝ)

/-- Notebook constant: `NU = 0.01/np.pi`. -/
noncomputable def NU : ℝ := 0.01 / Real.pi

/-- `np.linspace a b n`: `n` evenly spaced samples over `[a, b]`,
endpoints included, sample `i` at `a + (b - a) * i / (n - 1)`. -/
noncomputable def linspace (a b : ℝ) (n : ℕ) : List ℝ :=
  (List.range n).map (fun (i : ℕ) => a + (b - a) * (i : ℝ) / ((n : ℝ) - 1))

/-- Notebook initial condition: `INITIAL_NUMPY = [-np.sin(np.pi * x) * 1.
for x in np.linspace(-1, 1, N)]`. -/
noncomputable def INITIAL_NUMPY : List ℝ :=
  (linspace (-1) 1 N).map (fun x => -Real.sin (Real.pi * x) * 1)

/-- The notebook's driver run: `STEPS` iterations of the stepper on the
periodic domain `[-1, 1]`, starting from `INITIAL_NUMPY`. -/
noncomputable def velocitiesRun : List (List ℝ) :=
  BurgersSpec.velocities (-1) 1 NU DT INITIAL_NUMPY STEPS

theorem linspace_getD (a b : ℝ) (n i : ℕ) (hi : i < n) :
    (linspace a b n).getD i 0 = a + (b - a) * (i : ℝ) / ((n : ℝ) - 1) := by
  rw [linspace, BurgersSpec.getD_map_range _ _ _ hi]

theorem INITIAL_NUMPY_getD (i : ℕ) (hi : i < N) :
    INITIAL_NUMPY.getD i 0 =
      -Real.sin (Real.pi * (-1 + 2 * (i : ℝ) / 127)) := by
  rw [INITIAL_NUMPY, linspace, List.map_map,
    BurgersSpec.getD_map_range _ _ _ hi]
  norm_num [N]

/-- CLAIM C9.  For the literal configuration of the notebook — `N = 128`
cells on `[-1, 1]` (grid spacing `h = 2/128`), `nu = 0.01/π`,
`dt = 1/32` — the stability ratio `nu*dt/h^2` equals `1.28/π` and the
bound `nu*dt/h^2 ≤ 0.5` holds. -/
theorem stability_bound_holds :
    NU * DT / (BurgersSpec.gridSpacing (-1 : ℝ) 1 N) ^ 2 = 1.28 / Real.pi ∧
      NU * DT / (BurgersSpec.gridSpacing (-1 : ℝ) 1 N) ^ 2 ≤ 0.5 := by
  have hπ : (0:ℝ) < Real.pi := Real.pi_pos
  have hπ0 : Real.pi ≠ 0 := ne_of_gt hπ
  have heq : NU * DT / (BurgersSpec.gridSpacing (-1 : ℝ) 1 N) ^ 2 = 1.28 / Real.pi := by
    unfold NU DT N STEPS BurgersSpec.gridSpacing
    push_cast
    field_simp
    ring
  refine ⟨heq, ?_⟩
  rw [heq, div_le_iff hπ]
  nlinarith [Real.pi_gt_three]

/-- CLAIM C10.  The initial field supplied to the stepper samples
`u0(x) = -sin(πx)` at the `N = 128` points `x_i = -1 + 2i/127` of an
endpoints-inclusive linspace over `[-1, 1]`: consecutive samples are
`2/127` apart — not the stepper's grid spacing `h = 2/128` — and the
first and last samples represent the same periodic point, both with
value `0` in exact arithmetic. -/
theorem INITIAL_NUMPY_sampling :
    INITIAL_NUMPY.length = 128 ∧
      (∀ i : Fin 128, INITIAL_NUMPY.getD i 0 =
        -Real.sin (Real.pi * (-1 + 2 * (i : ℝ) / 127))) ∧
      (∀ i : Fin 127, (linspace (-1) 1 N).getD (i + 1) 0 -
          (linspace (-1) 1 N).getD i 0 = 2 / 127) ∧
      (2 : ℝ) / 127 ≠ BurgersSpec.gridSpacing (-1 : ℝ) 1 N ∧
      INITIAL_NUMPY.getD 0 0 = 0 ∧ INITIAL_NUMPY.getD 127 0 = 0 := by
  refine ⟨?_, ?_, ?_, ?_, ?_, ?_⟩
  · rw [INITIAL_NUMPY, List.length_map, linspace, List.length_map,
      List.length_range]
    rfl
  · intro i
    exact INITIAL_NUMPY_getD i.val i.isLt
  · intro i
    have h1 : i.val + 1 < N := by have := i.isLt; unfold N; omega
    have h2 : i.val < N := by omega
    rw [linspace_getD _ _ _ _ h1, linspace_getD _ _ _ _ h2]
    unfold N
    push_cast
    field_simp
    ring
  · norm_num [BurgersSpec.gridSpacing, N]
  · rw [INITIAL_NUMPY_getD 0 (by norm_num [N])]
    norm_num [Real.sin_pi]
  · rw [INITIAL_NUMPY_getD 127 (by norm_num [N])]
    norm_num [Real.sin_pi]

/-- CLAIM C5.  The driver run is an ordered trace of exactly `STEPS + 1 =
33` fields whose first element is the initial condition and whose
`(k+1)`-th element is the stepper applied to the `k`-th; appending a new
field never changes the elements appended earlier. -/
theorem velocitiesRun_trace :
    velocitiesRun.length = STEPS + 1 ∧ velocitiesRun.length = 33 ∧
      velocitiesRun.getD 0 [] = INITIAL_NUMPY ∧
      (∀ k : Fin STEPS, velocitiesRun.getD (k.val + 1) [] =
        BurgersSpec.stepPure (-1) 1 NU DT (velocitiesRun.getD k.val [])) ∧
      (∀ k : Fin STEPS, ∀ j : Fin (k.val + 1),
        (BurgersSpec.velocities (-1) 1 NU DT INITIAL_NUMPY (k.val + 1)).getD j.val [] =
          (BurgersSpec.velocities (-1) 1 NU DT INITIAL_NUMPY k.val).getD j.val []) := by
  refine ⟨BurgersSpec.velocities_length _ _ _ _ _ _, ?_, ?_, ?_, ?_⟩
  · rw [velocitiesRun, BurgersSpec.velocities_length]
    rfl
  · exact BurgersSpec.velocities_getD_zero _ _ _ _ _ _
  · intro k
    exact BurgersSpec.velocities_getD_succ _ _ _ _ _ STEPS k.val k.isLt
  · intro k j
    exact BurgersSpec.velocities_getD_of_le _ _ _ _ _ k.val (k.val + 1) j.val
      (Nat.le_succ _) (by omega)

end Burgers1D
